import Mathlib

/-!
# Verification of the ervis evidence-record library

A shallow embedding of `src/evidence_record.py` (class `EvidenceRecord`),
with theorems checking the natural-language specification against it.

Modelling conventions, mirroring the Python source:

* Digests are `String`s; the "combine" function is plain string
  concatenation with `+` separators, exactly as `hash_pair` does.
* Python `None` becomes `Option.none`; Python truthiness of a string
  (`if right_hash`) is `truthyStr` (empty string and `None` are falsy).
* `time.time()` is an external clock; functions that read it take an
  explicit rational `now` argument (one call site per batch in the
  source; within one call all timestamps receive the same instant).
* Unhandled Python exceptions (IndexError on list indexing, KeyError on
  a missing dict key, TypeError from subscripting `None`, ValueError
  from `list.index`) are modelled as `Except.error` with a `Fault`
  naming the exception; a normal return is `Except.ok`.
* The mutable instance flag `self.with_bracket` (set to `False` in
  `__init__` and never written again anywhere in the repository) is an
  explicit first parameter `wb` of every method that reads it; the
  program always runs with `wb = false`.
* Tree nodes in the source carry `left`/`right`/`parent` object
  references.  The build loop wires node `(level+1, j)` to children
  `(level, 2*j)` and `(level, 2*j+1)`; the embedding stores the levels
  as `List (List String)` and recovers children/parent by that index
  arithmetic, which is exactly the pointer graph the loop creates.
  The flat `tree['nodes']` registry is the levels concatenated in
  order (leaves first, then each built level), which is the search
  order `reduce_tree` uses.
-/

namespace Ervis

/-- An unhandled Python exception kind. -/
inductive Fault where
  | indexError
  | typeError
  | keyError
  | valueError
deriving DecidableEq, Repr

/-- Python truthiness of an optional string: `None` and `""` are falsy. -/
def truthyStr (s : Option String) : Bool :=
  match s with
  | none => false
  | some t => !(t == "")

/-- Embedding of `EvidenceRecord.hash_pair` (src/evidence_record.py:42-54).
`wb` is the instance field `self.with_bracket`. -/
def hash_pair (wb : Bool) (left : String) (right : Option String)
    (write_brackets : Bool) : String :=
  if truthyStr right && write_brackets && wb then
    "(" ++ left ++ ") + (" ++ right.getD "" ++ ")"
  else if truthyStr right then
    left ++ "+" ++ right.getD ""
  else
    left

/-- One pass of the build loop in `create_hashtree`
(src/evidence_record.py:74-86): pair adjacent nodes left-to-right; a
lone trailing node yields a parent with `right = None` whose digest is
`hash_pair(left, None)` (= the left digest unchanged). -/
def pairUpLevel (wb : Bool) : List String → List String
  | [] => []
  | [a] => [hash_pair wb a none false]
  | a :: b :: rest => hash_pair wb a (some b) false :: pairUpLevel wb rest

/-- Fuel-bounded runner for the level-building loop of
`create_hashtree`.  The fuel is only an upper bound on the number of
loop iterations (each iteration at least halves the level, so the
initial level's length always suffices, and the fuel never runs out);
it makes the definition structurally recursive so it evaluates by
kernel reduction. -/
def buildLevelsAux (wb : Bool) : Nat → List String → List (List String)
  | 0, lvl => [lvl]
  | fuel + 1, lvl =>
    if lvl.length ≤ 1 then [lvl]
    else lvl :: buildLevelsAux wb fuel (pairUpLevel wb lvl)

/-- The `levels` list built by `create_hashtree`: level 0 is the input;
while the top level has more than one node, append its pairing. -/
def buildLevels (wb : Bool) (lvl : List String) : List (List String) :=
  buildLevelsAux wb lvl.length lvl

/-- The tree returned by `create_hashtree`: the levels plus the root
digest `levels[-1][0]`. -/
structure Tree where
  levels : List (List String)
  root : String

/-- Embedding of `EvidenceRecord.create_hashtree` (src/evidence_record.py:56-91).
Reading `tree['levels'][-1][0]` raises IndexError when the final level
is empty (which happens exactly on empty input). -/
def create_hashtree (wb : Bool) (hash_values : List String) :
    Except Fault Tree :=
  let lvls := buildLevels wb hash_values
  match (lvls.getLastD []).head? with
  | some r => .ok ⟨lvls, r⟩
  | none => .error .indexError

/-- An abstract timestamp (`create_timestamp`,
src/evidence_record.py:93-96): the digest timestamped, the clock
reading, and the digest-algorithm identifier. -/
structure Timestamp where
  hash : String
  time : Rat
  algorithm : String
deriving DecidableEq

/-- Embedding of `EvidenceRecord.create_timestamp` with the `time.time()` reading
passed in as `now`. -/
def create_timestamp (hash_value : String) (now : Rat)
    (timestamp_hash_algorithm : String) : Timestamp :=
  ⟨hash_value, now, timestamp_hash_algorithm⟩

/-- A node of the reduced tree built by `reduce_tree`: the Python dicts
`{'hash', 'left', 'right', 'is_leaf', 'leaf_position'}`.  A missing
`left`/`right` key and an explicit `None` value are both `none` (the
code only distinguishes them by which exception a bad access raises).
`leaf_position` is write-only in the whole repository; on sibling stubs
the source stores a stray full-node reference in it (the defect flagged
in the spec), embedded as `none` since no code ever reads it. -/
inductive Reduced where
  | mk (hash : String) (left : Option Reduced) (right : Option Reduced)
      (is_leaf : Bool) (leaf_position : Option String)

def Reduced.hash : Reduced → String
  | .mk h _ _ _ _ => h

def Reduced.left : Reduced → Option Reduced
  | .mk _ l _ _ _ => l

def Reduced.right : Reduced → Option Reduced
  | .mk _ _ r _ _ => r

def Reduced.is_leaf : Reduced → Bool
  | .mk _ _ _ f _ => f

def Reduced.leaf_position : Reduced → Option String
  | .mk _ _ _ _ p => p

theorem Reduced.hash_mk (h : String) (l r : Option Reduced) (f : Bool)
    (p : Option String) : (Reduced.mk h l r f p).hash = h := rfl

theorem Reduced.left_mk (h : String) (l r : Option Reduced) (f : Bool)
    (p : Option String) : (Reduced.mk h l r f p).left = l := rfl

theorem Reduced.right_mk (h : String) (l r : Option Reduced) (f : Bool)
    (p : Option String) : (Reduced.mk h l r f p).right = r := rfl

theorem Reduced.is_leaf_mk (h : String) (l r : Option Reduced) (f : Bool)
    (p : Option String) : (Reduced.mk h l r f p).is_leaf = f := rfl

/-- Structural equality test for reduced trees (Python `==` on the
dicts). -/
def Reduced.beq : Reduced → Reduced → Bool
  | .mk h1 l1 r1 f1 p1, .mk h2 l2 r2 f2 p2 =>
    h1 == h2 && f1 == f2 && p1 == p2 &&
    (match l1, l2 with
     | none, none => true
     | some a, some b => Reduced.beq a b
     | _, _ => false) &&
    (match r1, r2 with
     | none, none => true
     | some a, some b => Reduced.beq a b
     | _, _ => false)

instance : BEq Reduced := ⟨Reduced.beq⟩

/-- Python's linear first-match scan (`for node in ...: if node[...] == target`
and `list.index`). -/
def pyFindIdx {α : Type} (p : α → Bool) : List α → Option Nat
  | [] => none
  | x :: rest => if p x then some 0 else (pyFindIdx p rest).map (· + 1)

/-- Locate the first node whose digest equals the target, scanning
`tree['nodes']` in insertion order: all of level 0, then level 1, and
so on.  Returns the `(level, index)` coordinates. -/
def findNode : List (List String) → String → Option (Nat × Nat)
  | [], _ => none
  | lvl :: rest, t =>
    match pyFindIdx (fun x => x == t) lvl with
    | some i => some (0, i)
    | none => (findNode rest t).map (fun p => (p.1 + 1, p.2))

/-- The sibling stub built at src/evidence_record.py:123 and :126:
`{'hash': ..., 'is_leaf': ..., 'leaf_position': ...}` with no
`left`/`right` keys.  A sibling at level `l` has `is_leaf = (l = 0)`. -/
def stubOf (l : Nat) (h : String) : Reduced :=
  .mk h none none (decide (l = 0)) none

/-- The parent-walk of `reduce_tree` (src/evidence_record.py:117-129):
from node `(l, i)` climb to the root, wrapping the accumulated reduced
tree in a fresh node per level and stubbing the sibling.  The parent of
`(l, i)` is `(l+1, i/2)` with children `(l, 2*(i/2))` and
`(l, 2*(i/2)+1)`; a parent exists exactly while `l` is below the top
level.  The source compares `current['left']['hash']` with the
accumulated hash to decide which side is live. -/
def climbStep (lvls : List (List String)) (l i : Nat) (acc : Reduced) :
    Reduced :=
  let cur := lvls.getD l []
  let par := lvls.getD (l + 1) []
  let pidx := i / 2
  let ph := par.getD pidx ""
  let leftHash := cur.getD (2 * pidx) ""
  let hasRight := 2 * pidx + 1 < cur.length
  let rightHash := cur.getD (2 * pidx + 1) ""
  if leftHash == acc.hash then
    Reduced.mk ph (some acc)
      (if hasRight then some (stubOf l rightHash) else none) false none
  else
    Reduced.mk ph (some (stubOf l leftHash)) (some acc) false none

/-- Fuel-bounded runner for the parent walk; the fuel bounds the
number of levels still to climb (the walk gains one level per step, so
`lvls.length - l` always suffices and the fuel never runs out). -/
def climbAux (lvls : List (List String)) : Nat → Nat → Nat → Reduced → Reduced
  | 0, _, _, acc => acc
  | fuel + 1, l, i, acc =>
    if l + 1 < lvls.length then
      climbAux lvls fuel (l + 1) (i / 2) (climbStep lvls l i acc)
    else acc

def climb (lvls : List (List String)) (l i : Nat) (acc : Reduced) : Reduced :=
  climbAux lvls (lvls.length - l) l i acc

/-- Outcome of `reduce_tree`: `notFound` is the source's `return None`;
`keyError` is the unhandled KeyError raised at
src/evidence_record.py:113 when the first hash match is an internal
node (internal nodes have no `'leaf_position'` key). -/
inductive ReduceResult where
  | notFound
  | keyError
  | ok (r : Reduced)

/-- Embedding of `EvidenceRecord.reduce_tree` (src/evidence_record.py:98-131). -/
def reduce_tree (tree : Tree) (target_hash : String) : ReduceResult :=
  match findNode tree.levels target_hash with
  | none => .notFound
  | some (l, i) =>
    if l = 0 then
      .ok (climb tree.levels 0 i
        (Reduced.mk target_hash none none true
          (some (if i % 2 = 0 then "left" else "right"))))
    else .keyError

/-- One `ArchiveTimeStampChain` entry: `{'reduced': ..., 'timestamp': ...}`. -/
structure Link where
  reduced : Option Reduced
  timestamp : Timestamp

instance : BEq Link :=
  ⟨fun a b => a.reduced == b.reduced &&
    (decide (a.timestamp = b.timestamp))⟩

/-- The evidence-record dict built by `create_evidence_record`
(src/evidence_record.py:133-148). -/
structure Record where
  version : Nat
  digestAlgorithm : String
  cryptoInfos : List String
  encryptionInfo : Option String
  archiveTimeStampSequence : List Link

instance : BEq Record :=
  ⟨fun a b => a.version == b.version &&
    a.digestAlgorithm == b.digestAlgorithm &&
    a.cryptoInfos == b.cryptoInfos &&
    a.encryptionInfo == b.encryptionInfo &&
    a.archiveTimeStampSequence == b.archiveTimeStampSequence⟩

/-- Embedding of `EvidenceRecord.encode_atsc` (src/evidence_record.py:150-157):
concatenate the timestamp digests of the sequence. -/
def encode_atsc (sequence : List Link) : String :=
  sequence.foldl (fun enc ats => enc ++ ats.timestamp.hash) ""

/-- Embedding of `EvidenceRecord.create_evidence_record` (src/evidence_record.py:133-148). -/
def create_evidence_record (tree : Tree) (reduced_tree : Option Reduced)
    (hash_algorithm : String) (now : Rat) : Record :=
  { version := 1
    digestAlgorithm := hash_algorithm
    cryptoInfos := []
    encryptionInfo := none
    archiveTimeStampSequence :=
      [⟨reduced_tree, create_timestamp tree.root now hash_algorithm⟩] }

/-- Embedding of `EvidenceRecord.verify_timestamp` (src/evidence_record.py:201-206). -/
def verify_timestamp (timestamp : Timestamp) (reference_time : Rat) : Bool :=
  decide (timestamp.time < reference_time)

/-- Embedding of `EvidenceRecord.verify_reduced_tree` (src/evidence_record.py:208-219).
For a non-leaf node the source reads `reduced_tree['left']['hash']`,
which raises when the left child is absent; that is the `.error` case. -/
def verify_reduced_tree (wb : Bool) (reduced_tree : Option Reduced)
    (target_hash : String) : Except Fault Bool :=
  match reduced_tree with
  | none => .ok false
  | some rt =>
    if rt.is_leaf then .ok (rt.hash == target_hash)
    else
      match rt.left with
      | none => .error .typeError
      | some l =>
        .ok (hash_pair wb l.hash (rt.right.map Reduced.hash) false == rt.hash)

def msgInvalidStructure : String := "Invalid evidence record structure"

def msgInitialFailed : String := "Initial hash verification failed"

def msgAlgReuse (i : Nat) (prev cur : String) : String :=
  "Inconsistent hash algorithm in chain " ++ toString i ++
    ": expected " ++ prev ++ ", got " ++ cur

def msgTimestampOrder (i : Nat) : String :=
  "Invalid timestamp sequence in chain " ++ toString i

def msgLinkage (i : Nat) : String :=
  "Chain linkage verification failed at chain " ++ toString i

def msgStale : String := "Last timestamp is not valid at current time"

def msgSuccess : String := "Evidence record verification successful"

/-- Result of the `for` loop over `archiveTimeStampSequence[1:]` in
`verify_evidence_record`: either an early `return (False, msg)` or the
final `(previous_timestamp)` after the loop. -/
inductive LoopRes where
  | failed (msg : String)
  | done (lastTs : Timestamp)

/-- The loop body of `verify_evidence_record`
(src/evidence_record.py:239-257).  The source indexes
`hash_value_algorithm_pairs[i-1]` for `i = 2, 3, ...`; consuming the
pair list in step with the chain list is the same access pattern, and
running out of pairs is the source's IndexError.  `i` is threaded only
for the diagnostic messages. -/
def verifyChainLoop (wb : Bool) :
    List Link → List (String × String) → Nat → Timestamp → String →
    Except Fault LoopRes
  | [], _, _, prevTs, _ => .ok (.done prevTs)
  | _ :: _, [], _, _, _ => .error .indexError
  | c :: rest, (current_hash, current_algorithm) :: prest, i, prevTs,
      prevAlg =>
    if current_algorithm == prevAlg then
      .ok (.failed (msgAlgReuse i prevAlg current_algorithm))
    else if !(verify_timestamp prevTs (c.timestamp.time + 1)) then
      .ok (.failed (msgTimestampOrder i))
    else
      let right_leaf := encode_atsc [⟨none, prevTs⟩]
      let concatenated_hash := hash_pair wb current_hash (some right_leaf) false
      match verify_reduced_tree wb c.reduced concatenated_hash with
      | .error f => .error f
      | .ok b =>
        if !b then .ok (.failed (msgLinkage i))
        else verifyChainLoop wb rest prest (i + 1) c.timestamp
          current_algorithm

/-- Embedding of `EvidenceRecord.verify_evidence_record` (src/evidence_record.py:221-263).
`now` is the `time.time()` reading at line 226 (the source adds 1 to it). -/
def verify_evidence_record (wb : Bool) (record : Option Record)
    (hash_value_algorithm_pairs : List (String × String)) (now : Rat) :
    Except Fault (Bool × String) :=
  match record with
  | none => .ok (false, msgInvalidStructure)
  | some r =>
    match r.archiveTimeStampSequence with
    | [] => .ok (false, msgInvalidStructure)
    | initial_chain :: restChains =>
      let current_time := now + 1
      match hash_value_algorithm_pairs with
      | [] => .error .indexError
      | (initial_hash, initial_algorithm) :: prest =>
        match verify_reduced_tree wb initial_chain.reduced initial_hash with
        | .error f => .error f
        | .ok b =>
          if !b then .ok (false, msgInitialFailed)
          else
            match verifyChainLoop wb restChains prest 2
                initial_chain.timestamp initial_algorithm with
            | .error f => .error f
            | .ok (.failed m) => .ok (false, m)
            | .ok (.done lastTs) =>
              if !(verify_timestamp lastTs current_time) then
                .ok (false, msgStale)
              else .ok (true, msgSuccess)

/-- Steps 3-4 of `renew_hashtree` (src/evidence_record.py:164-171): the
new leaf for one record is the new document digest combined (with
`write_brackets=True`) with the digest of the encoded existing chain. -/
def renewLeaf (wb : Bool) (record : Record) (new_document_hash : String) :
    String :=
  let atsc := encode_atsc record.archiveTimeStampSequence
  let atsc_hash := hash_pair wb atsc none false
  hash_pair wb new_document_hash (some atsc_hash) true

/-- The second loop of `renew_hashtree` (src/evidence_record.py:177-197).
The source mutates the records in place while iterating and looks each
`(record, hash)` pair up again with `list.index` (value equality over
the *current*, partially-mutated list); the fold carries that list as
`cur` and rewrites slot `k` after processing it.  `list.index` on a
missing value is the ValueError fault; a KeyError escaping
`reduce_tree` aborts the loop.  The fuel bounds the number of slots
still to process (`cur.length - k` always suffices since `List.set`
preserves the length, so the fuel never runs out). -/
def renewLoopAux (wb : Bool) (new_hashes : List String) (new_tree : Tree)
    (new_hash_algorithm : String) (now : Rat) :
    Nat → List (Record × String) → Nat → List Record →
    Except Fault (List Record)
  | 0, _, _, results => .ok results
  | fuel + 1, cur, k, results =>
    if hk : k < cur.length then
      let rh := cur.get ⟨k, hk⟩
      match pyFindIdx (fun p => p == rh) cur with
      | none => .error .valueError
      | some idx =>
        let combined_hash := new_hashes.getD idx ""
        let step : Except Fault (Option Reduced) :=
          match reduce_tree new_tree combined_hash with
          | .ok r => .ok (some r)
          | .notFound => .ok none
          | .keyError => .error .keyError
        match step with
        | .error f => .error f
        | .ok reduced =>
          let new_timestamp := create_timestamp new_tree.root now
            new_hash_algorithm
          let record' := { rh.1 with
            archiveTimeStampSequence :=
              rh.1.archiveTimeStampSequence ++ [⟨reduced, new_timestamp⟩]
            digestAlgorithm := new_hash_algorithm }
          renewLoopAux wb new_hashes new_tree new_hash_algorithm now fuel
            (cur.set k (record', rh.2)) (k + 1) (results ++ [record'])
    else .ok results

def renewLoop (wb : Bool) (new_hashes : List String) (new_tree : Tree)
    (new_hash_algorithm : String) (now : Rat)
    (cur : List (Record × String)) (k : Nat) (results : List Record) :
    Except Fault (List Record) :=
  renewLoopAux wb new_hashes new_tree new_hash_algorithm now
    (cur.length - k) cur k results

/-- Embedding of `EvidenceRecord.renew_hashtree` (src/evidence_record.py:159-199).
`now` is the `time.time()` reading used for the batch's new timestamps. -/
def renew_hashtree (wb : Bool) (records_and_hashes : List (Record × String))
    (new_hash_algorithm : String) (now : Rat) :
    Except Fault (List Record × Tree) :=
  let new_hashes := records_and_hashes.map (fun rh => renewLeaf wb rh.1 rh.2)
  match create_hashtree wb new_hashes with
  | .error f => .error f
  | .ok new_tree =>
    match renewLoop wb new_hashes new_tree new_hash_algorithm now
        records_and_hashes 0 [] with
    | .error f => .error f
    | .ok results => .ok (results, new_tree)

/-- Recomputing an authenticated path bottom-up, as the spec's
invariant describes it: a node with children pairs them with the
combine rule, left operand first; a childless node (a leaf or a sibling
stub) contributes its stored digest. -/
def recomputePath (wb : Bool) : Reduced → String
  | .mk h none _ _ _ => h
  | .mk _ (some l) none _ _ => hash_pair wb (recomputePath wb l) none false
  | .mk _ (some l) (some r) _ _ =>
    hash_pair wb (recomputePath wb l) (some (recomputePath wb r)) false

/-! ## Basic lemmas about the combine rule and the level structure -/

/-- Combining with an absent right operand returns the left digest. -/
theorem hash_pair_none (wb : Bool) (s : String) (wbr : Bool) :
    hash_pair wb s none wbr = s := by
  simp [hash_pair, truthyStr]

/-- With the instance flag `with_bracket = False` (its value throughout
the program) the `write_brackets` argument is inert. -/
theorem hash_pair_false_wbr (l : String) (r : Option String) (wbr : Bool) :
    hash_pair false l r wbr = hash_pair false l r false := by
  simp [hash_pair]

theorem pairUpLevel_length (wb : Bool) (l : List String) :
    (pairUpLevel wb l).length = (l.length + 1) / 2 := by
  induction l using pairUpLevel.induct wb with
  | case1 => simp [pairUpLevel]
  | case2 _ => simp [pairUpLevel]
  | case3 a b rest ih => simp [pairUpLevel, ih]; omega

theorem pairUpLevel_getD (wb : Bool) (l : List String) :
    ∀ j, j < (pairUpLevel wb l).length →
      (pairUpLevel wb l).getD j "" =
        hash_pair wb (l.getD (2 * j) "")
          (if 2 * j + 1 < l.length then some (l.getD (2 * j + 1) "")
           else none) false := by
  induction l using pairUpLevel.induct wb with
  | case1 => intro j hj; simp [pairUpLevel] at hj
  | case2 a =>
    intro j hj
    simp [pairUpLevel] at hj
    subst hj
    simp [pairUpLevel]
  | case3 a b rest ih =>
    intro j hj
    match j with
    | 0 => simp [pairUpLevel]
    | j + 1 =>
      have hj' : j < (pairUpLevel wb rest).length := by
        simp only [pairUpLevel, List.length_cons] at hj; omega
      simp only [pairUpLevel, List.getD_cons_succ]
      rw [ih j hj']
      have e1 : 2 * (j + 1) = 2 * j + 1 + 1 := by omega
      by_cases hc : 2 * j + 1 < rest.length
      · rw [if_pos hc,
          if_pos (show 2 * (j + 1) + 1 < (a :: b :: rest).length by
            simp only [List.length_cons]; omega)]
        rw [e1]
        simp only [List.getD_cons_succ]
      · rw [if_neg hc,
          if_neg (show ¬ (2 * (j + 1) + 1 < (a :: b :: rest).length) by
            simp only [List.length_cons]; omega)]
        rw [e1]
        simp only [List.getD_cons_succ]

/-- The chaining invariant of `buildLevels`: each level after the first
is the pairing of its predecessor. -/
def LevelsLinked (wb : Bool) : List (List String) → Prop
  | [] => True
  | [_] => True
  | a :: b :: rest => b = pairUpLevel wb a ∧ LevelsLinked wb (b :: rest)

theorem buildLevelsAux_cons (wb : Bool) (fuel : Nat) (l : List String) :
    ∃ tl, buildLevelsAux wb fuel l = l :: tl := by
  match fuel with
  | 0 => exact ⟨[], rfl⟩
  | fuel + 1 =>
    simp only [buildLevelsAux]
    split
    · exact ⟨[], rfl⟩
    · exact ⟨_, rfl⟩

theorem buildLevels_cons (wb : Bool) (l : List String) :
    ∃ tl, buildLevels wb l = l :: tl :=
  buildLevelsAux_cons wb l.length l

theorem buildLevels_getD_zero (wb : Bool) (l : List String) :
    (buildLevels wb l).getD 0 [] = l := by
  obtain ⟨tl, htl⟩ := buildLevels_cons wb l
  simp [htl]

theorem buildLevels_ne_nil (wb : Bool) (l : List String) :
    buildLevels wb l ≠ [] := by
  obtain ⟨tl, htl⟩ := buildLevels_cons wb l
  simp [htl]

theorem buildLevelsAux_linked (wb : Bool) :
    ∀ (fuel : Nat) (l : List String), l.length ≤ fuel →
      LevelsLinked wb (buildLevelsAux wb fuel l) := by
  intro fuel
  induction fuel with
  | zero =>
    intro l _
    exact trivial
  | succ fuel ih =>
    intro l hlf
    by_cases hle : l.length ≤ 1
    · simp only [buildLevelsAux, if_pos hle]; trivial
    · simp only [buildLevelsAux, if_neg hle]
      have hpl : (pairUpLevel wb l).length ≤ fuel := by
        rw [pairUpLevel_length]; omega
      obtain ⟨tl, htl⟩ := buildLevelsAux_cons wb fuel (pairUpLevel wb l)
      rw [htl]
      have := ih (pairUpLevel wb l) hpl
      rw [htl] at this
      exact ⟨rfl, this⟩

theorem buildLevels_linked (wb : Bool) (l : List String) :
    LevelsLinked wb (buildLevels wb l) :=
  buildLevelsAux_linked wb l.length l (le_refl _)

theorem LevelsLinked_getD (wb : Bool) :
    ∀ (L : List (List String)), LevelsLinked wb L →
    ∀ n, n + 1 < L.length →
      L.getD (n + 1) [] = pairUpLevel wb (L.getD n []) := by
  intro L
  induction L with
  | nil => intro _ n hn; simp at hn
  | cons a rest ih =>
    intro hlk n hn
    match rest, hlk with
    | [], _ => simp at hn
    | b :: rest', ⟨hb, hlk'⟩ =>
      match n with
      | 0 => simpa using hb
      | n + 1 =>
        simp only [List.getD_cons_succ]
        exact ih hlk' n (by simpa using hn)

theorem getLastD_eq_getD {α : Type} (L : List α) (d : α) :
    L.getLastD d = L.getD (L.length - 1) d := by
  rw [List.getLastD_eq_getLast?, List.getLast?_eq_getElem?,
    List.getD_eq_getElem?_getD]

/-- A nonempty input yields a singleton top level (the loop runs until
one node remains). -/
theorem buildLevelsAux_top (wb : Bool) :
    ∀ (fuel : Nat) (l : List String), l ≠ [] → l.length ≤ fuel →
      ∃ x, (buildLevelsAux wb fuel l).getLastD [] = [x] := by
  intro fuel
  induction fuel with
  | zero =>
    intro l hne hlf
    exact absurd (List.eq_nil_of_length_eq_zero (by omega)) hne
  | succ fuel ih =>
    intro l hne hlf
    by_cases hle : l.length ≤ 1
    · match l, hne with
      | [], hne => exact absurd rfl hne
      | [a], _ => exact ⟨a, by simp [buildLevelsAux]⟩
      | a :: b :: rest, _ => simp at hle
    · simp only [buildLevelsAux, if_neg hle]
      have hplen : pairUpLevel wb l ≠ [] := by
        have := pairUpLevel_length wb l
        intro hc
        rw [hc] at this
        simp at this
        omega
      have hpf : (pairUpLevel wb l).length ≤ fuel := by
        rw [pairUpLevel_length]; omega
      obtain ⟨x, hx⟩ := ih (pairUpLevel wb l) hplen hpf
      refine ⟨x, ?_⟩
      obtain ⟨tl, htl⟩ := buildLevelsAux_cons wb fuel (pairUpLevel wb l)
      rw [htl] at hx ⊢
      simpa using hx

theorem buildLevels_top (wb : Bool) (l : List String) (hne : l ≠ []) :
    ∃ x, (buildLevels wb l).getLastD [] = [x] :=
  buildLevelsAux_top wb l.length l hne (le_refl _)

/-! ## Lemmas about the linear scans -/

theorem pyFindIdx_some_lt {α : Type} (p : α → Bool) :
    ∀ (l : List α) (j : Nat), pyFindIdx p l = some j → j < l.length := by
  intro l
  induction l with
  | nil => intro j h; simp [pyFindIdx] at h
  | cons x rest ih =>
    intro j h
    simp only [pyFindIdx] at h
    split at h
    · cases h; simp
    · match hrec : pyFindIdx p rest with
      | none => rw [hrec] at h; simp at h
      | some j' =>
        rw [hrec] at h
        simp at h
        subst h
        have := ih j' hrec
        simp
        omega

theorem pyFindIdx_isSome {α : Type} (p : α → Bool) :
    ∀ (l : List α), (∃ x ∈ l, p x = true) → ∃ j, pyFindIdx p l = some j := by
  intro l
  induction l with
  | nil => rintro ⟨x, hx, _⟩; simp at hx
  | cons y rest ih =>
    rintro ⟨x, hx, hp⟩
    simp only [pyFindIdx]
    by_cases hy : p y
    · exact ⟨0, by simp [hy]⟩
    · rcases List.mem_cons.mp hx with h | h
      · subst h; exact absurd hp hy
      · obtain ⟨j, hj⟩ := ih ⟨x, h, hp⟩
        exact ⟨j + 1, by simp [hy, hj]⟩

theorem pyFindIdx_beq_getD :
    ∀ (l : List String) (t : String) (j : Nat),
      pyFindIdx (fun x => x == t) l = some j → l.getD j "" = t := by
  intro l
  induction l with
  | nil => intro t j h; simp [pyFindIdx] at h
  | cons x rest ih =>
    intro t j h
    simp only [pyFindIdx] at h
    split at h
    · cases h
      rename_i hx
      simpa using hx
    · match hrec : pyFindIdx (fun x => x == t) rest with
      | none => rw [hrec] at h; simp at h
      | some j' =>
        rw [hrec] at h
        simp at h
        subst h
        simpa using ih t j' hrec

/-- A target that occurs among the leaves is located at level 0 (the
flat node registry lists all leaves before any internal node). -/
theorem findNode_level0 (lv0 : List (List String)) (hs : List String)
    (tl : List (List String)) (t : String) (h0 : lv0 = hs :: tl)
    (hmem : t ∈ hs) :
    ∃ j, findNode lv0 t = some (0, j) ∧ j < hs.length ∧ hs.getD j "" = t := by
  subst h0
  obtain ⟨j, hj⟩ := pyFindIdx_isSome (fun x => x == t) hs
    ⟨t, hmem, by simp⟩
  refine ⟨j, ?_, pyFindIdx_some_lt _ hs j hj, pyFindIdx_beq_getD hs t j hj⟩
  simp [findNode, hj]

/-! ## The climbing invariant

One step of the parent walk preserves three facts about the
accumulated reduced tree: its top digest is the digest the
corresponding full-tree node stores, recomputing it bottom-up yields
that digest, and the shallow check of `verify_reduced_tree` accepts
it. -/

theorem climbStep_spec (wb : Bool) (tgt : String) (lvls : List (List String))
    (hlk : LevelsLinked wb lvls) (l i : Nat) (acc : Reduced)
    (hcl : l + 1 < lvls.length)
    (hi : i < (lvls.getD l []).length)
    (hh : acc.hash = (lvls.getD l []).getD i "")
    (hrp : recomputePath wb acc = acc.hash) :
    i / 2 < (lvls.getD (l + 1) []).length ∧
    (climbStep lvls l i acc).hash = (lvls.getD (l + 1) []).getD (i / 2) "" ∧
    recomputePath wb (climbStep lvls l i acc) =
      (climbStep lvls l i acc).hash ∧
    verify_reduced_tree wb (some (climbStep lvls l i acc)) tgt = .ok true := by
  have hpar : lvls.getD (l + 1) [] = pairUpLevel wb (lvls.getD l []) :=
    LevelsLinked_getD wb lvls hlk l hcl
  have hplen : (pairUpLevel wb (lvls.getD l [])).length =
      ((lvls.getD l []).length + 1) / 2 := pairUpLevel_length wb _
  have hpidx : i / 2 < (lvls.getD (l + 1) []).length := by
    rw [hpar, hplen]; omega
  have hph : (lvls.getD (l + 1) []).getD (i / 2) "" =
      hash_pair wb ((lvls.getD l []).getD (2 * (i / 2)) "")
        (if 2 * (i / 2) + 1 < (lvls.getD l []).length then
          some ((lvls.getD l []).getD (2 * (i / 2) + 1) "") else none)
        false := by
    rw [hpar]
    exact pairUpLevel_getD wb _ (i / 2) (by rw [hpar] at hpidx; exact hpidx)
  refine ⟨hpidx, ?_⟩
  by_cases hb : (lvls.getD l []).getD (2 * (i / 2)) "" = acc.hash
  · -- the live branch comes up on the left
    have hstep : climbStep lvls l i acc =
        Reduced.mk ((lvls.getD (l + 1) []).getD (i / 2) "") (some acc)
          (if 2 * (i / 2) + 1 < (lvls.getD l []).length then
            some (stubOf l ((lvls.getD l []).getD (2 * (i / 2) + 1) ""))
           else none) false none := by
      simp only [climbStep]
      rw [if_pos (by simpa using hb)]
    rw [hstep]
    by_cases hr : 2 * (i / 2) + 1 < (lvls.getD l []).length
    · rw [if_pos hr]
      refine ⟨rfl, ?_, ?_⟩
      · simp only [recomputePath, stubOf, Reduced.hash_mk, hrp]
        rw [hph, if_pos hr, hb]
      · simp only [verify_reduced_tree, Reduced.is_leaf_mk, Reduced.left_mk,
          Reduced.right_mk, Reduced.hash_mk, Option.map_some', stubOf,
          Bool.false_eq_true, if_false]
        rw [hph, if_pos hr, hb]
        simp
    · rw [if_neg hr]
      refine ⟨rfl, ?_, ?_⟩
      · simp only [recomputePath, Reduced.hash_mk, hrp]
        rw [hph, if_neg hr, hb]
      · simp only [verify_reduced_tree, Reduced.is_leaf_mk, Reduced.left_mk,
          Reduced.right_mk, Reduced.hash_mk, Option.map_none',
          Bool.false_eq_true, if_false]
        rw [hph, if_neg hr, hb]
        simp
  · -- the live branch comes up on the right, so `i` is odd
    have hiodd : i = 2 * (i / 2) + 1 := by
      have hcases : i = 2 * (i / 2) ∨ i = 2 * (i / 2) + 1 := by omega
      rcases hcases with he | ho
      · exact absurd (by rw [← he]; exact hh.symm) hb
      · exact ho
    have hr : 2 * (i / 2) + 1 < (lvls.getD l []).length := by
      rw [← hiodd]; exact hi
    have hacc : acc.hash = (lvls.getD l []).getD (2 * (i / 2) + 1) "" := by
      rw [← hiodd]; exact hh
    have hstep : climbStep lvls l i acc =
        Reduced.mk ((lvls.getD (l + 1) []).getD (i / 2) "")
          (some (stubOf l ((lvls.getD l []).getD (2 * (i / 2)) "")))
          (some acc) false none := by
      simp only [climbStep]
      rw [if_neg (by simpa using hb)]
    rw [hstep]
    refine ⟨rfl, ?_, ?_⟩
    · simp only [recomputePath, stubOf, Reduced.hash_mk, hrp]
      rw [hph, if_pos hr, hacc]
    · simp only [verify_reduced_tree, Reduced.is_leaf_mk, Reduced.left_mk,
        Reduced.right_mk, Reduced.hash_mk, Option.map_some', stubOf,
        Bool.false_eq_true, if_false]
      rw [hph, if_pos hr, hacc]
      simp

theorem climbAux_spec (wb : Bool) (tgt : String) (lvls : List (List String))
    (hlk : LevelsLinked wb lvls)
    (htop : (lvls.getD (lvls.length - 1) []).length = 1) :
    ∀ (fuel l i : Nat) (acc : Reduced), lvls.length - l ≤ fuel →
    l < lvls.length →
    i < (lvls.getD l []).length →
    acc.hash = (lvls.getD l []).getD i "" →
    recomputePath wb acc = acc.hash →
    verify_reduced_tree wb (some acc) tgt = .ok true →
    (climbAux lvls fuel l i acc).hash =
      (lvls.getD (lvls.length - 1) []).getD 0 "" ∧
    recomputePath wb (climbAux lvls fuel l i acc) =
      (climbAux lvls fuel l i acc).hash ∧
    verify_reduced_tree wb (some (climbAux lvls fuel l i acc)) tgt =
      .ok true := by
  intro fuel
  induction fuel with
  | zero =>
    intro l i acc hf hl hi hh hrp hvt
    omega
  | succ fuel ih =>
    intro l i acc hf hl hi hh hrp hvt
    by_cases hcl : l + 1 < lvls.length
    · simp only [climbAux, if_pos hcl]
      obtain ⟨h1, h2, h3, h4⟩ :=
        climbStep_spec wb tgt lvls hlk l i acc hcl hi hh hrp
      exact ih (l + 1) (i / 2) _ (by omega) hcl h1 h2 h3 h4
    · simp only [climbAux, if_neg hcl]
      have hl1 : l = lvls.length - 1 := by omega
      have hi0 : i = 0 := by
        rw [hl1] at hi
        omega
      subst hl1
      subst hi0
      exact ⟨hh, hrp, hvt⟩

/-- The full parent walk carries the invariants to the root: the
resulting reduced tree recomputes to the singleton top level's digest
and passes the shallow verification check. -/
theorem climb_spec (wb : Bool) (tgt : String) (lvls : List (List String))
    (hlk : LevelsLinked wb lvls)
    (htop : (lvls.getD (lvls.length - 1) []).length = 1)
    (l i : Nat) (acc : Reduced)
    (hl : l < lvls.length)
    (hi : i < (lvls.getD l []).length)
    (hh : acc.hash = (lvls.getD l []).getD i "")
    (hrp : recomputePath wb acc = acc.hash)
    (hvt : verify_reduced_tree wb (some acc) tgt = .ok true) :
    (climb lvls l i acc).hash = (lvls.getD (lvls.length - 1) []).getD 0 "" ∧
    recomputePath wb (climb lvls l i acc) = (climb lvls l i acc).hash ∧
    verify_reduced_tree wb (some (climb lvls l i acc)) tgt = .ok true :=
  climbAux_spec wb tgt lvls hlk htop (lvls.length - l) l i acc (le_refl _)
    hl hi hh hrp hvt

/-! ## Gluing construction and reduction together -/

theorem create_hashtree_ok (wb : Bool) (hs : List String) (hne : hs ≠ []) :
    ∃ t, create_hashtree wb hs = .ok t ∧ t.levels = buildLevels wb hs ∧
      (t.levels.getD (t.levels.length - 1) []).length = 1 ∧
      t.root = (t.levels.getD (t.levels.length - 1) []).getD 0 "" := by
  obtain ⟨x, hx⟩ := buildLevels_top wb hs hne
  have hgl : (buildLevels wb hs).getD ((buildLevels wb hs).length - 1) [] =
      [x] := by
    rw [← getLastD_eq_getD]; exact hx
  refine ⟨⟨buildLevels wb hs, x⟩, ?_, rfl, ?_, ?_⟩
  · simp only [create_hashtree]
    rw [hx]
    rfl
  · show ((buildLevels wb hs).getD ((buildLevels wb hs).length - 1) []).length = 1
    rw [hgl]
    rfl
  · show x = ((buildLevels wb hs).getD ((buildLevels wb hs).length - 1) []).getD 0 ""
    rw [hgl]
    rfl

theorem create_hashtree_inv (wb : Bool) (hs : List String) (t : Tree)
    (hcr : create_hashtree wb hs = .ok t) :
    t.levels = buildLevels wb hs := by
  unfold create_hashtree at hcr
  match hm : ((buildLevels wb hs).getLastD []).head? with
  | some r => simp only [hm] at hcr; cases hcr; rfl
  | none =>
    simp only [hm] at hcr
    exact Except.noConfusion hcr

/-- Reducing a freshly built tree to any of its leaves succeeds, the
resulting authenticated path recomputes to the root, and the shallow
check of `verify_reduced_tree` accepts it against the leaf digest. -/
theorem reduce_tree_ok (wb : Bool) (hs : List String) (t : Tree)
    (hcr : create_hashtree wb hs = .ok t) (tgt : String) (hmem : tgt ∈ hs) :
    ∃ r, reduce_tree t tgt = .ok r ∧ recomputePath wb r = t.root ∧
      verify_reduced_tree wb (some r) tgt = .ok true := by
  have hne : hs ≠ [] := by rintro rfl; simp at hmem
  obtain ⟨t', hcr', hlv', htop', hroot'⟩ := create_hashtree_ok wb hs hne
  have ht : t = t' := by
    rw [hcr] at hcr'
    cases hcr'
    rfl
  subst ht
  have hlv := hlv'
  obtain ⟨tl, htl⟩ := buildLevels_cons wb hs
  obtain ⟨j, hfind, hjlt, hjval⟩ :=
    findNode_level0 t.levels hs tl tgt (by rw [hlv, htl]) hmem
  have hred : reduce_tree t tgt = .ok (climb t.levels 0 j
      (Reduced.mk tgt none none true
        (some (if j % 2 = 0 then "left" else "right")))) := by
    simp [reduce_tree, hfind]
  have hlk : LevelsLinked wb t.levels := by
    rw [hlv]; exact buildLevels_linked wb hs
  have hlen0 : (t.levels.getD 0 []) = hs := by
    rw [hlv]; exact buildLevels_getD_zero wb hs
  have h0lt : 0 < t.levels.length := by
    rw [hlv, htl]; simp
  have hjlt' : j < (t.levels.getD 0 []).length := by rw [hlen0]; exact hjlt
  have hbase : (Reduced.mk tgt none none true
      (some (if j % 2 = 0 then "left" else "right"))).hash =
      (t.levels.getD 0 []).getD j "" := by
    rw [Reduced.hash_mk, hlen0]
    exact hjval.symm
  have hbrp : recomputePath wb (Reduced.mk tgt none none true
      (some (if j % 2 = 0 then "left" else "right"))) =
      (Reduced.mk tgt none none true
        (some (if j % 2 = 0 then "left" else "right"))).hash := by
    simp [recomputePath, Reduced.hash_mk]
  have hbvt : verify_reduced_tree wb (some (Reduced.mk tgt none none true
      (some (if j % 2 = 0 then "left" else "right")))) tgt = .ok true := by
    simp [verify_reduced_tree, Reduced.is_leaf_mk, Reduced.hash_mk]
  obtain ⟨c1, c2, c3⟩ := climb_spec wb tgt t.levels hlk htop' 0 j
    (Reduced.mk tgt none none true
      (some (if j % 2 = 0 then "left" else "right")))
    h0lt hjlt' hbase hbrp hbvt
  refine ⟨_, hred, ?_, c3⟩
  rw [c2, c1, ← hroot']

/-! ## C1: reduced paths recompute the root digest -/

/-- C1.  For every non-empty sequence of leaf digests whose node
digests are pairwise distinct, reducing the built hash tree to any
leaf's authenticated path and recomputing it bottom-up with the combine
rule yields exactly the root digest of the full tree. -/
theorem c1_reduce_recomputes_root (leaves : List String) (h : String)
    (hne : leaves ≠ [])
    (_hnodup : ((buildLevels false leaves).flatten).Nodup)
    (hmem : h ∈ leaves) :
    ∃ t r, create_hashtree false leaves = .ok t ∧
      reduce_tree t h = .ok r ∧
      recomputePath false r = t.root := by
  obtain ⟨t, hcr, _, _, _⟩ := create_hashtree_ok false leaves hne
  obtain ⟨r, hred, hrec, _⟩ := reduce_tree_ok false leaves t hcr h hmem
  exact ⟨t, r, hcr, hred, hrec⟩

theorem c1_reduce_recomputes_root_witness :
    ∃ t r, create_hashtree false ["h1", "h2", "h3", "h4"] = .ok t ∧
      reduce_tree t "h3" = .ok r ∧
      recomputePath false r = t.root :=
  c1_reduce_recomputes_root ["h1", "h2", "h3", "h4"] "h3"
    (by decide) (by decide) (by decide)

/-! ## Reflexivity of the structural equality tests

`renew_hashtree` re-locates each `(record, hash)` pair with
`list.index`, i.e. value equality; the only property the proofs need
is that every value equals itself. -/

theorem Reduced.beq_refl : ∀ (r : Reduced), Reduced.beq r r = true
  | .mk h l r f p => by
    unfold Reduced.beq
    have hl : (match l, l with
        | none, none => true
        | some a, some b => Reduced.beq a b
        | _, _ => false) = true := by
      match l with
      | none => rfl
      | some a => exact Reduced.beq_refl a
    have hr : (match r, r with
        | none, none => true
        | some a, some b => Reduced.beq a b
        | _, _ => false) = true := by
      match r with
      | none => rfl
      | some a => exact Reduced.beq_refl a
    simp [hl, hr]

theorem optReduced_beq_refl (o : Option Reduced) : (o == o) = true := by
  match o with
  | none => rfl
  | some a => exact Reduced.beq_refl a

theorem link_beq_refl (l : Link) : (l == l) = true := by
  show (l.reduced == l.reduced && decide (l.timestamp = l.timestamp)) = true
  simp [optReduced_beq_refl]

theorem listLink_beq_refl (ls : List Link) : (ls == ls) = true := by
  induction ls with
  | nil => rfl
  | cons x rest ih =>
    show (x == x && (rest == rest)) = true
    simp [link_beq_refl, ih]

theorem record_beq_refl (r : Record) : (r == r) = true := by
  show (r.version == r.version && r.digestAlgorithm == r.digestAlgorithm &&
    r.cryptoInfos == r.cryptoInfos && r.encryptionInfo == r.encryptionInfo &&
    r.archiveTimeStampSequence == r.archiveTimeStampSequence) = true
  simp [listLink_beq_refl]

theorem recPair_beq_refl (p : Record × String) : (p == p) = true := by
  show (p.1 == p.1 && p.2 == p.2) = true
  simp [record_beq_refl]

/-! ## Evaluation lemmas for verification and renewal -/

theorem str_empty_append (s : String) : "" ++ s = s := rfl

/-- Verification of a record with a single chain link reduces to the
initial path check plus the freshness check. -/
theorem verify_one_link (wb : Bool) (rec : Record) (l0 : Link)
    (hseq : rec.archiveTimeStampSequence = [l0])
    (h alg : String) (now : Rat)
    (hvr : verify_reduced_tree wb l0.reduced h = .ok true)
    (hts : l0.timestamp.time < now + 1) :
    verify_evidence_record wb (some rec) [(h, alg)] now =
      .ok (true, msgSuccess) := by
  simp only [verify_evidence_record, hseq]
  rw [hvr]
  simp [verifyChainLoop, verify_timestamp, decide_eq_true hts]

/-- Verification of a record with exactly two chain links, all of
whose checks pass. -/
theorem verify_two_links (wb : Bool) (rec : Record) (l0 l1 : Link)
    (hseq : rec.archiveTimeStampSequence = [l0, l1])
    (h0 a0 h1 a1 : String) (now : Rat)
    (hvr0 : verify_reduced_tree wb l0.reduced h0 = .ok true)
    (halg : (a1 == a0) = false)
    (hts01 : l0.timestamp.time < l1.timestamp.time + 1)
    (hvr1 : verify_reduced_tree wb l1.reduced
        (hash_pair wb h1 (some l0.timestamp.hash) false) = .ok true)
    (htsv : l1.timestamp.time < now + 1) :
    verify_evidence_record wb (some rec) [(h0, a0), (h1, a1)] now =
      .ok (true, msgSuccess) := by
  simp only [verify_evidence_record, hseq]
  rw [hvr0]
  simp only [Bool.not_true, Bool.false_eq_true, if_false, verifyChainLoop,
    halg, encode_atsc, List.foldl, str_empty_append]
  rw [show verify_timestamp l0.timestamp (l1.timestamp.time + 1) = true
    from decide_eq_true hts01]
  simp only [Bool.not_true, Bool.false_eq_true, if_false]
  rw [hvr1]
  simp [verify_timestamp, decide_eq_true htsv]

/-- Reducing a single-leaf tree for its leaf yields the bare leaf
node. -/
theorem reduce_single (t : Tree) (x : String) (ht : t = ⟨[[x]], x⟩) :
    reduce_tree t x = .ok (Reduced.mk x none none true (some "left")) := by
  subst ht
  simp [reduce_tree, findNode, pyFindIdx, climb, climbAux]

/-- Renewal of a one-record batch: the shared tree is the single-leaf
tree over the record's combined digest, and the record gains exactly
the chain link holding that leaf's (trivial) authenticated path. -/
theorem renew_single (rec : Record) (nh alg : String) (t1 : Rat) :
    renew_hashtree false [(rec, nh)] alg t1 =
      .ok ([{ rec with
        archiveTimeStampSequence := rec.archiveTimeStampSequence ++
          [⟨some (Reduced.mk (renewLeaf false rec nh) none none true
              (some "left")),
            ⟨renewLeaf false rec nh, t1, alg⟩⟩]
        digestAlgorithm := alg }],
        ⟨[[renewLeaf false rec nh]], renewLeaf false rec nh⟩) := by
  simp only [renew_hashtree, List.map]
  rw [show create_hashtree false [renewLeaf false rec nh] =
    .ok ⟨[[renewLeaf false rec nh]], renewLeaf false rec nh⟩ from rfl]
  simp only [renewLoop, renewLoopAux, List.length_cons, List.length_nil,
    Nat.zero_lt_one, dif_pos, pyFindIdx, recPair_beq_refl, if_true,
    List.get, List.getD, create_timestamp]
  rw [show (([renewLeaf false rec nh].get? 0).getD "") =
      renewLeaf false rec nh from rfl,
    reduce_single ⟨[[renewLeaf false rec nh]], renewLeaf false rec nh⟩
      (renewLeaf false rec nh) rfl]
  rfl

/-! ## C3: creation and renewal round-trip through verification -/

/-- C3.  Building a tree over any non-empty leaf sequence, reducing it
for one leaf, and creating an evidence record yields a record that
verifies against its true (digest, algorithm) pair; after one renewal
under a different algorithm with a new document digest, verification
against the two true pairs in order also passes.  The clock readings
satisfy the monotonicity `time.time()` provides. -/
theorem c3_create_renew_verify_pass (leaves : List String) (h : String)
    (hmem : h ∈ leaves) (alg1 alg2 nh : String) (halg : alg2 ≠ alg1)
    (t0 t1 tv tv' : Rat) (h01 : t0 ≤ t1) (h0v : t0 ≤ tv) (h1v : t1 ≤ tv') :
    ∃ t r, create_hashtree false leaves = .ok t ∧
      reduce_tree t h = .ok r ∧
      verify_evidence_record false
        (some (create_evidence_record t (some r) alg1 t0)) [(h, alg1)] tv =
        .ok (true, msgSuccess) ∧
      ∃ rec1 t2,
        renew_hashtree false [(create_evidence_record t (some r) alg1 t0, nh)]
          alg2 t1 = .ok ([rec1], t2) ∧
        verify_evidence_record false (some rec1) [(h, alg1), (nh, alg2)] tv' =
          .ok (true, msgSuccess) := by
  have hne : leaves ≠ [] := by rintro rfl; simp at hmem
  obtain ⟨t, hct, _, _, _⟩ := create_hashtree_ok false leaves hne
  obtain ⟨r, hrd, _, hvr⟩ := reduce_tree_ok false leaves t hct h hmem
  have hseq0 : (create_evidence_record t (some r) alg1 t0).archiveTimeStampSequence
      = [⟨some r, ⟨t.root, t0, alg1⟩⟩] := rfl
  have hfresh := verify_one_link false (create_evidence_record t (some r) alg1 t0)
    ⟨some r, ⟨t.root, t0, alg1⟩⟩ hseq0 h alg1 tv hvr
    (show t0 < tv + 1 by linarith)
  refine ⟨t, r, hct, hrd, hfresh, ?_⟩
  refine ⟨_, _, renew_single (create_evidence_record t (some r) alg1 t0) nh alg2 t1, ?_⟩
  have hleafeq : renewLeaf false (create_evidence_record t (some r) alg1 t0) nh =
      hash_pair false nh (some t.root) false := by
    simp only [renewLeaf]
    rw [hash_pair_none, hash_pair_false_wbr]
    rw [hseq0]
    simp [encode_atsc, str_empty_append]
  have hvr1 : verify_reduced_tree false
      (some (Reduced.mk
        (renewLeaf false (create_evidence_record t (some r) alg1 t0) nh)
        none none true (some "left")))
      (hash_pair false nh (some t.root) false) = .ok true := by
    simp only [verify_reduced_tree, Reduced.is_leaf_mk, Reduced.hash_mk,
      if_true, hleafeq]
    simp
  exact verify_two_links false _ ⟨some r, ⟨t.root, t0, alg1⟩⟩
    ⟨some (Reduced.mk
      (renewLeaf false (create_evidence_record t (some r) alg1 t0) nh)
      none none true (some "left")),
      ⟨renewLeaf false (create_evidence_record t (some r) alg1 t0) nh, t1, alg2⟩⟩
    (by rw [show ({ create_evidence_record t (some r) alg1 t0 with
        archiveTimeStampSequence :=
          (create_evidence_record t (some r) alg1 t0).archiveTimeStampSequence ++
            [⟨some (Reduced.mk
              (renewLeaf false (create_evidence_record t (some r) alg1 t0) nh)
              none none true (some "left")),
              ⟨renewLeaf false (create_evidence_record t (some r) alg1 t0) nh,
                t1, alg2⟩⟩]
        digestAlgorithm := alg2 } : Record).archiveTimeStampSequence =
        (create_evidence_record t (some r) alg1 t0).archiveTimeStampSequence ++
          [_] from rfl, hseq0]; rfl)
    h alg1 nh alg2 tv' hvr
    (beq_eq_false_iff_ne.mpr halg)
    (show t0 < t1 + 1 by linarith)
    hvr1
    (show t1 < tv' + 1 by linarith)

theorem c3_create_renew_verify_pass_witness :
    ∃ t r, create_hashtree false ["h1", "h2", "h3"] = .ok t ∧
      reduce_tree t "h3" = .ok r ∧
      verify_evidence_record false
        (some (create_evidence_record t (some r) "SHA256" 0))
        [("h3", "SHA256")] 5 = .ok (true, msgSuccess) ∧
      ∃ rec1 t2,
        renew_hashtree false
          [(create_evidence_record t (some r) "SHA256" 0, "H1")]
          "SHA512" 1 = .ok ([rec1], t2) ∧
        verify_evidence_record false (some rec1)
          [("h3", "SHA256"), ("H1", "SHA512")] 6 = .ok (true, msgSuccess) :=
  c3_create_renew_verify_pass ["h1", "h2", "h3"] "h3" (by decide)
    "SHA256" "SHA512" "H1" (by decide) 0 1 5 6
    (by norm_num) (by norm_num) (by norm_num)

/-! ## C2: mutating a deep digest of a stored authenticated path

`verify_reduced_tree` checks only the top pairing of the reduced tree
and, on a non-leaf path, never reads the supplied target digest; a
digest mutated below the top two levels is not detected. -/

/-- The tree over the worked example's leaves `["h1", "h2", "h3"]`. -/
def tree123 : Tree :=
  ⟨[["h1", "h2", "h3"], ["h1+h2", "h3"], ["h1+h2+h3"]], "h1+h2+h3"⟩

/-- The authenticated path `reduce_tree` produces for leaf `"h3"`. -/
def red3 : Reduced :=
  .mk "h1+h2+h3" (some (.mk "h1+h2" none none false none))
    (some (.mk "h3" (some (.mk "h3" none none true (some "left"))) none
      false none)) false none

/-- `red3` with its single innermost digest `"h3"` mutated to `"hX"`;
every other field is identical. -/
def mut3 : Reduced :=
  .mk "h1+h2+h3" (some (.mk "h1+h2" none none false none))
    (some (.mk "h3" (some (.mk "hX" none none true (some "left"))) none
      false none)) false none

/-- C2 (code-bug evaluation).  The record holding the mutated path
still verifies as a pass: the initial-path check recomputes only the
top pairing `"h1+h2" + "h3" = "h1+h2+h3"` and never reaches the
mutated digest (nor the supplied initial digest). -/
theorem c2_deep_mutation_not_detected :
    create_hashtree false ["h1", "h2", "h3"] = .ok tree123 ∧
    reduce_tree tree123 "h3" = .ok red3 ∧
    verify_evidence_record false
      (some (create_evidence_record tree123 (some mut3) "SHA256" 0))
      [("h3", "SHA256")] 5 = .ok (true, msgSuccess) := by
  refine ⟨rfl, rfl, ?_⟩
  simp [verify_evidence_record, create_evidence_record, create_timestamp,
    verify_reduced_tree, verifyChainLoop, verify_timestamp, hash_pair,
    truthyStr, mut3, tree123, Reduced.is_leaf_mk, Reduced.left_mk,
    Reduced.right_mk, Reduced.hash_mk,
    decide_eq_true (show (0:Rat) < 5 + 1 by norm_num)]

/-! ## C4: verification totality -/

/-- A record with one well-formed chain link, used to exhibit the
IndexError on a too-short pair list. -/
def cexRecord4 : Record :=
  ⟨1, "SHA256", [], none,
    [⟨some (.mk "h" none none true none), ⟨"h", 0, "SHA256"⟩⟩]⟩

/-- C4 counterexample.  With an empty (hence shorter-than-the-chain)
pair list, `verify_evidence_record` aborts with an unhandled
IndexError (`hash_value_algorithm_pairs[0]` in the source) instead of
returning a (pass/fail, reason) result. -/
theorem c4_counterexample_short_pairs_abort :
    verify_evidence_record false (some cexRecord4) [] 0 =
      .error Fault.indexError ∧
    ¬ ∃ p : Bool × String,
      verify_evidence_record false (some cexRecord4) [] 0 = .ok p := by
  refine ⟨rfl, ?_⟩
  rintro ⟨p, hp⟩
  rw [show verify_evidence_record false (some cexRecord4) [] 0 =
    .error Fault.indexError from rfl] at hp
  exact Except.noConfusion hp

/-- Shape condition under which `verify_reduced_tree` cannot raise: a
missing path, a leaf, or an internal node that has a left child. -/
def ReducedSafe : Option Reduced → Prop
  | none => True
  | some rt => rt.is_leaf = true ∨ rt.left ≠ none

theorem verify_reduced_tree_total (wb : Bool) (rt : Option Reduced)
    (tgt : String) (hs : ReducedSafe rt) :
    ∃ b, verify_reduced_tree wb rt tgt = .ok b := by
  match rt, hs with
  | none, _ => exact ⟨false, rfl⟩
  | some r, hs =>
    simp only [verify_reduced_tree]
    by_cases hf : r.is_leaf
    · exact ⟨_, by rw [if_pos hf]⟩
    · rcases hs with hs | hs
      · exact absurd hs hf
      · match hl : r.left with
        | none => exact absurd hl hs
        | some l =>
          refine ⟨hash_pair wb l.hash (r.right.map Reduced.hash) false ==
            r.hash, ?_⟩
          simp only [if_neg hf, hl]

theorem verifyChainLoop_total (wb : Bool) :
    ∀ (chains : List Link) (prest : List (String × String)) (i : Nat)
      (prevTs : Timestamp) (prevAlg : String),
      (∀ c ∈ chains, ReducedSafe c.reduced) →
      chains.length ≤ prest.length →
      ∃ res, verifyChainLoop wb chains prest i prevTs prevAlg = .ok res := by
  intro chains
  induction chains with
  | nil => intro prest i prevTs prevAlg _ _; exact ⟨_, rfl⟩
  | cons c rest ih =>
    intro prest i prevTs prevAlg hsafe hlen
    match prest with
    | [] => simp at hlen
    | (ch, ca) :: ptl =>
      simp only [verifyChainLoop]
      by_cases hca : ca == prevAlg
      · exact ⟨_, by rw [if_pos hca]⟩
      · rw [if_neg hca]
        by_cases hts : verify_timestamp prevTs (c.timestamp.time + 1)
        · rw [hts]
          simp only [Bool.not_true, Bool.false_eq_true, if_false]
          obtain ⟨b, hb⟩ := verify_reduced_tree_total wb c.reduced
            (hash_pair wb ch (some (encode_atsc [⟨none, prevTs⟩])) false)
            (hsafe c (List.mem_cons_self c rest))
          rw [hb]
          match b with
          | false => exact ⟨_, rfl⟩
          | true =>
            simp only [Bool.not_true, Bool.false_eq_true, if_false]
            exact ih ptl (i + 1) c.timestamp ca
              (fun x hx => hsafe x (List.mem_cons_of_mem c hx))
              (by simpa using Nat.le_of_succ_le_succ (by simpa using hlen))
        · simp only [Bool.not_eq_true] at hts
          rw [hts]
          exact ⟨_, rfl⟩

/-- C4 amended.  Verification completes with a result value whenever
the supplied pair list is at least as long as the chain sequence and
every stored authenticated path is well-shaped (absent, a leaf, or an
internal node with a left child); outside those conditions the source
can raise IndexError (short pair list) or TypeError/KeyError (internal
reduced node without a left child). -/
theorem c4_verify_total (record : Option Record)
    (pairs : List (String × String)) (now : Rat)
    (hcond : ∀ rec, record = some rec →
      (∀ c ∈ rec.archiveTimeStampSequence, ReducedSafe c.reduced) ∧
      rec.archiveTimeStampSequence.length ≤ pairs.length) :
    ∃ res : Bool × String,
      verify_evidence_record false record pairs now = .ok res := by
  match record with
  | none => exact ⟨_, rfl⟩
  | some rec =>
    obtain ⟨hsafe, hlen⟩ := hcond rec rfl
    simp only [verify_evidence_record]
    match hseq : rec.archiveTimeStampSequence with
    | [] => exact ⟨_, rfl⟩
    | l0 :: restChains =>
      rw [hseq] at hsafe hlen
      match pairs, hlen with
      | (h0, a0) :: prest, hlen =>
        simp only []
        obtain ⟨b, hb⟩ := verify_reduced_tree_total false l0.reduced h0
          (hsafe l0 (List.mem_cons_self l0 restChains))
        rw [hb]
        match b with
        | false => exact ⟨_, rfl⟩
        | true =>
          simp only [Bool.not_true, Bool.false_eq_true, if_false]
          obtain ⟨res, hres⟩ := verifyChainLoop_total false restChains prest 2
            l0.timestamp a0
            (fun x hx => hsafe x (List.mem_cons_of_mem l0 hx))
            (by simpa using hlen)
          rw [hres]
          match res with
          | .failed m => exact ⟨_, rfl⟩
          | .done lastTs =>
            simp only []
            by_cases hv : verify_timestamp lastTs (now + 1)
            · rw [hv]
              exact ⟨(true, msgSuccess), by simp⟩
            · simp only [Bool.not_eq_true] at hv
              rw [hv]
              exact ⟨(false, msgStale), by simp⟩

theorem c4_verify_total_witness :
    ∃ res : Bool × String,
      verify_evidence_record false (some cexRecord4) [("x", "SHA256")] 0 =
        .ok res :=
  c4_verify_total (some cexRecord4) [("x", "SHA256")] 0
    (fun rec hr => by
      cases hr
      exact ⟨fun c hc => by
        simp only [cexRecord4, List.mem_singleton] at hc
        subst hc
        exact Or.inl rfl, by simp [cexRecord4]⟩)

/-! ## C9: construction on the empty sequence -/

/-- C9 counterexample.  On the empty leaf sequence `create_hashtree`
aborts with an unhandled IndexError (reading `levels[-1][0]` after the
build loop) — it does not return a failure value, and the abort happens
after the empty level structure was already assembled. -/
theorem c9_counterexample_empty_aborts :
    create_hashtree false [] = .error Fault.indexError ∧
    ¬ ∃ t, create_hashtree false [] = .ok t := by
  refine ⟨rfl, ?_⟩
  rintro ⟨t, ht⟩
  rw [show create_hashtree false [] = .error Fault.indexError from rfl] at ht
  exact Except.noConfusion ht

/-- C9 amended.  On the empty sequence construction aborts with an
index-out-of-range fault (an unhandled exception, not a returned
failure value, raised when the root is read out at the end); on every
non-empty sequence it succeeds and returns a tree with a root. -/
theorem c9_empty_faults_nonempty_succeeds (hs : List String) :
    (hs = [] → create_hashtree false hs = .error Fault.indexError) ∧
    (hs ≠ [] → ∃ t, create_hashtree false hs = .ok t) := by
  constructor
  · rintro rfl
    rfl
  · intro hne
    obtain ⟨t, hct, _, _, _⟩ := create_hashtree_ok false hs hne
    exact ⟨t, hct⟩

theorem c9_empty_faults_nonempty_succeeds_witness :
    create_hashtree false [] = .error Fault.indexError ∧
    ∃ t, create_hashtree false ["h1"] = .ok t :=
  ⟨(c9_empty_faults_nonempty_succeeds []).1 rfl,
    (c9_empty_faults_nonempty_succeeds ["h1"]).2 (by decide)⟩

/-! ## C5: adjacent chain links with the same supplied algorithm -/

/-- All per-link checks other than the algorithm comparison pass along
the chain/pair lists (linked to the running previous timestamp exactly
as the loop threads it); a chain longer than the pair list cannot
satisfy this. -/
def ChecksOk (wb : Bool) :
    List Link → List (String × String) → Timestamp → Prop
  | [], _, _ => True
  | _ :: _, [], _ => False
  | c :: rest, (ch, _) :: ptl, prevTs =>
      verify_timestamp prevTs (c.timestamp.time + 1) = true ∧
      verify_reduced_tree wb c.reduced
        (hash_pair wb ch (some (encode_atsc [⟨none, prevTs⟩])) false) =
        .ok true ∧
      ChecksOk wb rest ptl c.timestamp

/-- Some supplied algorithm (within the chain's extent) equals its
predecessor's, the first component threading exactly as the loop
threads `previous_algorithm`. -/
def AdjEqWithin : String → List Link → List (String × String) → Prop
  | _, [], _ => False
  | _, _ :: _, [] => False
  | prev, _ :: ctl, (_, ca) :: ptl => ca = prev ∨ AdjEqWithin ca ctl ptl

theorem verifyChainLoop_alg_reuse (wb : Bool) :
    ∀ (chains : List Link) (prest : List (String × String)) (i : Nat)
      (prevTs : Timestamp) (prevAlg : String),
      ChecksOk wb chains prest prevTs →
      AdjEqWithin prevAlg chains prest →
      ∃ k a, verifyChainLoop wb chains prest i prevTs prevAlg =
        .ok (.failed (msgAlgReuse k a a)) := by
  intro chains
  induction chains with
  | nil =>
    intro prest i prevTs prevAlg _ hadj
    exact hadj.elim
  | cons c rest ih =>
    intro prest i prevTs prevAlg hchk hadj
    match prest with
    | [] => exact hadj.elim
    | (ch, ca) :: ptl =>
      obtain ⟨hts, hvr, hrest⟩ := hchk
      simp only [verifyChainLoop]
      by_cases hca : ca = prevAlg
      · subst hca
        exact ⟨i, ca, by rw [if_pos (by simp)]⟩
      · have hbeq : (ca == prevAlg) = false := beq_eq_false_iff_ne.mpr hca
        rw [if_neg (by simp [hbeq])]
        rw [hts]
        simp only [Bool.not_true, Bool.false_eq_true, if_false]
        rw [hvr]
        simp only [Bool.not_true, Bool.false_eq_true, if_false]
        rcases hadj with h | h
        · exact absurd h hca
        · exact ih ptl (i + 1) c.timestamp ca hrest h

/-- C5.  Whenever a supplied algorithm equals its predecessor's within
the chain's extent and all digest and timestamp checks before that
point pass, verification fails with the algorithm-reuse diagnostic
(the spec's `AlgorithmReuseError`). -/
theorem c5_adjacent_alg_reuse_fails (rec : Record) (l0 : Link)
    (crest : List Link) (h0 a0 : String)
    (prest : List (String × String)) (now : Rat)
    (hseq : rec.archiveTimeStampSequence = l0 :: crest)
    (hvr0 : verify_reduced_tree false l0.reduced h0 = .ok true)
    (hchecks : ChecksOk false crest prest l0.timestamp)
    (hadj : AdjEqWithin a0 crest prest) :
    ∃ i a, verify_evidence_record false (some rec) ((h0, a0) :: prest) now =
      .ok (false, msgAlgReuse i a a) := by
  obtain ⟨k, a, hloop⟩ := verifyChainLoop_alg_reuse false crest prest 2
    l0.timestamp a0 hchecks hadj
  refine ⟨k, a, ?_⟩
  simp only [verify_evidence_record, hseq]
  rw [hvr0]
  simp only [Bool.not_true, Bool.false_eq_true, if_false]
  rw [hloop]

/-- A two-link record whose digests and timestamps are all valid but
whose supplied algorithms repeat. -/
def rec5 : Record :=
  ⟨1, "A", [], none,
    [⟨some (.mk "h" none none true none), ⟨"r0", 0, "A"⟩⟩,
     ⟨some (.mk "g+r0" none none true none), ⟨"r1", 0, "A"⟩⟩]⟩

theorem c5_adjacent_alg_reuse_fails_witness :
    ∃ i a, verify_evidence_record false (some rec5)
      [("h", "A"), ("g", "A")] 9 = .ok (false, msgAlgReuse i a a) :=
  c5_adjacent_alg_reuse_fails rec5
    ⟨some (.mk "h" none none true none), ⟨"r0", 0, "A"⟩⟩
    [⟨some (.mk "g+r0" none none true none), ⟨"r1", 0, "A"⟩⟩]
    "h" "A" [("g", "A")] 9 rfl rfl
    ⟨decide_eq_true (show (0:Rat) < 0 + 1 by norm_num), rfl, trivial⟩
    (Or.inl rfl)

/-! ## C6: backwards timestamps -/

/-- A two-link record whose second timestamp is strictly earlier than
the first by one half unit; every digest check passes and the supplied
algorithms differ. -/
def rec6 : Record :=
  ⟨1, "B", [], none,
    [⟨some (.mk "h" none none true none), ⟨"r0", 1, "A"⟩⟩,
     ⟨some (.mk "g+r0" none none true none), ⟨"r1", 1/2, "B"⟩⟩]⟩

/-- C6 counterexample.  The second link's instant is strictly earlier
than the first's (by one half), yet verification passes: the source
checks `previous.time < current.time + 1`, which tolerates any
regression smaller than one unit. -/
theorem c6_counterexample_subunit_regression_passes :
    ((1:Rat)/2 < 1 ∧
      (rec6.archiveTimeStampSequence.getD 1 ⟨none, ⟨"", 0, ""⟩⟩).timestamp.time
        = 1/2 ∧
      (rec6.archiveTimeStampSequence.getD 0 ⟨none, ⟨"", 0, ""⟩⟩).timestamp.time
        = 1) ∧
    verify_evidence_record false (some rec6) [("h", "A"), ("g", "B")] 5 =
      .ok (true, msgSuccess) := by
  refine ⟨⟨by norm_num, rfl, rfl⟩, ?_⟩
  exact verify_two_links false rec6
    ⟨some (.mk "h" none none true none), ⟨"r0", 1, "A"⟩⟩
    ⟨some (.mk "g+r0" none none true none), ⟨"r1", 1/2, "B"⟩⟩
    rfl "h" "A" "g" "B" 5 rfl (by decide)
    (show (1:Rat) < 1/2 + 1 by norm_num) rfl
    (show (1/2:Rat) < 5 + 1 by norm_num)

/-- The first timestamp regression of at least one unit along the
chain, with every check the loop performs before it passing (the
algorithm differs at the offending link, since that check runs
first). -/
def TsViolationWithin (wb : Bool) :
    Timestamp → String → List Link → List (String × String) → Prop
  | _, _, [], _ => False
  | _, _, _ :: _, [] => False
  | prevTs, prevAlg, c :: ctl, (ch, ca) :: ptl =>
      (ca ≠ prevAlg ∧ c.timestamp.time + 1 ≤ prevTs.time) ∨
      (ca ≠ prevAlg ∧ prevTs.time < c.timestamp.time + 1 ∧
        verify_reduced_tree wb c.reduced
          (hash_pair wb ch (some (encode_atsc [⟨none, prevTs⟩])) false) =
          .ok true ∧
        TsViolationWithin wb c.timestamp ca ctl ptl)

theorem verifyChainLoop_ts_violation (wb : Bool) :
    ∀ (chains : List Link) (prest : List (String × String)) (i : Nat)
      (prevTs : Timestamp) (prevAlg : String),
      TsViolationWithin wb prevTs prevAlg chains prest →
      ∃ k, verifyChainLoop wb chains prest i prevTs prevAlg =
        .ok (.failed (msgTimestampOrder k)) := by
  intro chains
  induction chains with
  | nil =>
    intro prest i prevTs prevAlg hviol
    exact hviol.elim
  | cons c rest ih =>
    intro prest i prevTs prevAlg hviol
    match prest with
    | [] => exact hviol.elim
    | (ch, ca) :: ptl =>
      simp only [verifyChainLoop]
      rcases hviol with ⟨hne, hle⟩ | ⟨hne, hlt, hvr, hrest⟩
      · refine ⟨i, ?_⟩
        rw [if_neg (by simp [beq_eq_false_iff_ne.mpr hne])]
        rw [show verify_timestamp prevTs (c.timestamp.time + 1) = false
          from decide_eq_false (by linarith)]
        rfl
      · rw [if_neg (by simp [beq_eq_false_iff_ne.mpr hne])]
        rw [show verify_timestamp prevTs (c.timestamp.time + 1) = true
          from decide_eq_true hlt]
        simp only [Bool.not_true, Bool.false_eq_true, if_false]
        rw [hvr]
        simp only [Bool.not_true, Bool.false_eq_true, if_false]
        exact ih ptl (i + 1) c.timestamp ca hrest

/-- C6 amended.  The source's check is `previous.time < current.time + 1`:
a regression of at least one unit (and only such a regression) at the
first offending link — all checks the loop performs before it passing —
makes verification fail with the timestamp-order diagnostic (the
spec's `TimestampOrderError`). -/
theorem c6_unit_regression_fails (rec : Record) (l0 : Link)
    (crest : List Link) (h0 a0 : String)
    (prest : List (String × String)) (now : Rat)
    (hseq : rec.archiveTimeStampSequence = l0 :: crest)
    (hvr0 : verify_reduced_tree false l0.reduced h0 = .ok true)
    (hviol : TsViolationWithin false l0.timestamp a0 crest prest) :
    ∃ i, verify_evidence_record false (some rec) ((h0, a0) :: prest) now =
      .ok (false, msgTimestampOrder i) := by
  obtain ⟨k, hloop⟩ := verifyChainLoop_ts_violation false crest prest 2
    l0.timestamp a0 hviol
  refine ⟨k, ?_⟩
  simp only [verify_evidence_record, hseq]
  rw [hvr0]
  simp only [Bool.not_true, Bool.false_eq_true, if_false]
  rw [hloop]

/-- A two-link record whose second timestamp is two units earlier than
the first. -/
def rec6b : Record :=
  ⟨1, "B", [], none,
    [⟨some (.mk "h" none none true none), ⟨"r0", 2, "A"⟩⟩,
     ⟨some (.mk "g+r0" none none true none), ⟨"r1", 1, "B"⟩⟩]⟩

theorem c6_unit_regression_fails_witness :
    ∃ i, verify_evidence_record false (some rec6b)
      [("h", "A"), ("g", "B")] 9 = .ok (false, msgTimestampOrder i) :=
  c6_unit_regression_fails rec6b
    ⟨some (.mk "h" none none true none), ⟨"r0", 2, "A"⟩⟩
    [⟨some (.mk "g+r0" none none true none), ⟨"r1", 1, "B"⟩⟩]
    "h" "A" [("g", "B")] 9 rfl rfl
    (Or.inl ⟨by decide, by norm_num⟩)

/-! ## C7: renewal is append-only -/

/-- The record produced for one renewal slot: the prior chain with one
appended link, the digest-algorithm field updated, everything else
copied. -/
def renewedRecord (rec : Record) (link : Link) (alg : String) : Record :=
  { rec with
    archiveTimeStampSequence := rec.archiveTimeStampSequence ++ [link]
    digestAlgorithm := alg }

theorem getD_mem {α : Type} (l : List α) (j : Nat) (d : α)
    (hj : j < l.length) : l.getD j d ∈ l := by
  rw [List.getD_eq_getElem?_getD, List.getElem?_eq_getElem hj]
  exact List.getElem_mem hj

theorem reduce_tree_found (t : Tree) (tgt : String)
    (hmem : tgt ∈ t.levels.getD 0 []) : ∃ r, reduce_tree t tgt = .ok r := by
  match hlv : t.levels with
  | [] => rw [hlv] at hmem; simp at hmem
  | lv0 :: tl =>
    rw [hlv] at hmem
    simp only [List.getD_cons_zero] at hmem
    obtain ⟨j, hfind, _, _⟩ := findNode_level0 t.levels lv0 tl tgt hlv hmem
    refine ⟨climb t.levels 0 j (Reduced.mk tgt none none true
      (some (if j % 2 = 0 then "left" else "right"))), ?_⟩
    simp [reduce_tree, hfind]

/-- One unfolding of the renewal loop at an in-range slot, with the
scan result and the reduction result supplied. -/
theorem renewLoopAux_step (wb : Bool) (nhs : List String) (nt : Tree)
    (alg : String) (now : Rat) (fuel : Nat)
    (cur : List (Record × String)) (k : Nat) (results : List Record)
    (hk : k < cur.length) (idx : Nat)
    (hidx : pyFindIdx (fun p => p == cur.get ⟨k, hk⟩) cur = some idx)
    (r : Reduced) (hr : reduce_tree nt (nhs.getD idx "") = .ok r) :
    renewLoopAux wb nhs nt alg now (fuel + 1) cur k results =
      renewLoopAux wb nhs nt alg now fuel
        (cur.set k
          (renewedRecord (cur.get ⟨k, hk⟩).1
            ⟨some r, create_timestamp nt.root now alg⟩ alg,
            (cur.get ⟨k, hk⟩).2))
        (k + 1)
        (results ++ [renewedRecord (cur.get ⟨k, hk⟩).1
          ⟨some r, create_timestamp nt.root now alg⟩ alg]) := by
  simp only [renewLoopAux, dif_pos hk]
  rw [hidx]
  simp only []
  rw [hr]
  rfl

/-- Invariant of the renewal loop: it returns the accumulated results
followed by, for each remaining slot, the slot's record (as it stood
when its turn came, which for slots not yet reached is the original)
with exactly one appended link and the algorithm field updated. -/
theorem renewLoopAux_spec (wb : Bool) (nhs : List String) (nt : Tree)
    (alg : String) (now : Rat) (hlv0 : nt.levels.getD 0 [] = nhs) :
    ∀ (fuel : Nat) (cur : List (Record × String)) (k : Nat)
      (results : List Record),
      cur.length - k ≤ fuel → cur.length = nhs.length →
      ∃ out, renewLoopAux wb nhs nt alg now fuel cur k results = .ok out ∧
        out.length = results.length + (cur.length - k) ∧
        (∀ j, j < results.length → out[j]? = results[j]?) ∧
        (∀ j (hj : j < cur.length), k ≤ j →
          ∃ link, out[results.length + (j - k)]? =
            some (renewedRecord (cur.get ⟨j, hj⟩).1 link alg)) := by
  intro fuel
  induction fuel with
  | zero =>
    intro cur k results hf hlen
    refine ⟨results, rfl, by omega, fun j hj => rfl, ?_⟩
    intro j hj hkj
    omega
  | succ fuel ih =>
    intro cur k results hf hlen
    by_cases hk : k < cur.length
    · obtain ⟨idx, hidx⟩ := pyFindIdx_isSome
        (fun p => p == cur.get ⟨k, hk⟩) cur
        ⟨cur.get ⟨k, hk⟩, List.get_mem cur k hk, recPair_beq_refl _⟩
      have hidxlt : idx < cur.length := pyFindIdx_some_lt _ cur idx hidx
      obtain ⟨r, hr⟩ := reduce_tree_found nt (nhs.getD idx "")
        (by rw [hlv0]; exact getD_mem nhs idx "" (by omega))
      rw [renewLoopAux_step wb nhs nt alg now fuel cur k results hk idx
        hidx r hr]
      obtain ⟨out, hout, hlo, hpre, hrest⟩ := ih
        (cur.set k
          (renewedRecord (cur.get ⟨k, hk⟩).1
            ⟨some r, create_timestamp nt.root now alg⟩ alg,
            (cur.get ⟨k, hk⟩).2))
        (k + 1)
        (results ++ [renewedRecord (cur.get ⟨k, hk⟩).1
          ⟨some r, create_timestamp nt.root now alg⟩ alg])
        (by rw [List.length_set]; omega)
        (by rw [List.length_set]; exact hlen)
      refine ⟨out, hout, ?_, ?_, ?_⟩
      · rw [hlo]
        rw [List.length_set, List.length_append]
        simp only [List.length_cons, List.length_nil]
        omega
      · intro j hj
        rw [hpre j (by rw [List.length_append]; simp; omega)]
        exact List.getElem?_append_left hj
      · intro j hj hkj
        rcases Nat.eq_or_lt_of_le hkj with heq | hlt
        · subst heq
          refine ⟨⟨some r, create_timestamp nt.root now alg⟩, ?_⟩
          rw [show results.length + (k - k) = results.length by omega]
          rw [hpre results.length
            (by rw [List.length_append]; simp)]
          exact List.getElem?_concat_length results _
        · have hj' : j < (cur.set k
              (renewedRecord (cur.get ⟨k, hk⟩).1
                ⟨some r, create_timestamp nt.root now alg⟩ alg,
                (cur.get ⟨k, hk⟩).2)).length := by
            rw [List.length_set]; exact hj
          obtain ⟨link, hlink⟩ := hrest j hj' (by omega)
          refine ⟨link, ?_⟩
          have hidxeq : results.length + (j - k) =
              (results ++ [renewedRecord (cur.get ⟨k, hk⟩).1
                ⟨some r, create_timestamp nt.root now alg⟩ alg]).length +
                (j - (k + 1)) := by
            rw [List.length_append]
            simp only [List.length_cons, List.length_nil]
            omega
          rw [hidxeq, hlink]
          have hget : (cur.set k
              (renewedRecord (cur.get ⟨k, hk⟩).1
                ⟨some r, create_timestamp nt.root now alg⟩ alg,
                (cur.get ⟨k, hk⟩).2)).get ⟨j, hj'⟩ = cur.get ⟨j, hj⟩ := by
            have h1 := List.get_eq_getElem (cur.set k
              (renewedRecord (cur.get ⟨k, hk⟩).1
                ⟨some r, create_timestamp nt.root now alg⟩ alg,
                (cur.get ⟨k, hk⟩).2)) ⟨j, hj'⟩
            have h2 := List.get_eq_getElem cur ⟨j, hj⟩
            rw [h1, h2]
            exact List.getElem_set_ne (by omega) hj'
          rw [hget]
    · simp only [renewLoopAux, dif_neg hk]
      refine ⟨results, rfl, by omega, fun j hj => rfl, ?_⟩
      intro j hj hkj
      omega

/-- C7.  Renewal is strictly append-only: for every non-empty batch,
every input record's chain sequence grows by exactly one link, every
pre-existing chain link (path and timestamp alike) is left unchanged,
and of the other fields only the digest-algorithm identifier changes —
`renewedRecord` is by definition the input record with one link
appended to `archiveTimeStampSequence` and `digestAlgorithm` replaced,
all remaining fields copied. -/
theorem c7_renewal_append_only (ras : List (Record × String))
    (alg : String) (now : Rat) (hne : ras ≠ []) :
    ∃ out nt, renew_hashtree false ras alg now = .ok (out, nt) ∧
      out.length = ras.length ∧
      ∀ j (hj : j < ras.length), ∃ link,
        out[j]? = some (renewedRecord (ras.get ⟨j, hj⟩).1 link alg) := by
  set nhs := ras.map (fun rh => renewLeaf false rh.1 rh.2) with hnhs
  have hmapne : nhs ≠ [] := by
    intro hc
    rw [hnhs] at hc
    exact hne (List.map_eq_nil_iff.mp hc)
  obtain ⟨nt, hct, hlv, _, _⟩ := create_hashtree_ok false nhs hmapne
  have hlv0 : nt.levels.getD 0 [] = nhs := by
    rw [hlv]; exact buildLevels_getD_zero false _
  have hlen2 : ras.length = nhs.length := by
    rw [hnhs, List.length_map]
  obtain ⟨out, hout, hlen, _, hrest⟩ := renewLoopAux_spec false
    nhs nt alg now hlv0 (ras.length - 0) ras 0 [] (le_refl _) hlen2
  refine ⟨out, nt, ?_, ?_, ?_⟩
  · simp only [renew_hashtree]
    rw [← hnhs, hct]
    simp only [renewLoop]
    rw [hout]
  · rw [hlen]; simp
  · intro j hj
    have := hrest j hj (Nat.zero_le j)
    simpa using this

/-- A one-record batch used to instantiate the renewal frame
theorem. -/
def ras7 : List (Record × String) :=
  [(⟨1, "SHA256", [], none,
    [⟨some (.mk "h1" none none true none), ⟨"h1", 0, "SHA256"⟩⟩]⟩, "H1")]

theorem c7_renewal_append_only_witness :
    ∃ out nt, renew_hashtree false ras7 "SHA512" 1 = .ok (out, nt) ∧
      out.length = ras7.length ∧
      ∀ j (hj : j < ras7.length), ∃ link,
        out[j]? = some (renewedRecord (ras7.get ⟨j, hj⟩).1 link "SHA512") :=
  c7_renewal_append_only ras7 "SHA512" 1 (by simp [ras7])

/-! ## C8: grouping of the renewal combine

The renewal call site passes `write_brackets=True`, but the bracketed
grouping also requires the instance flag `self.with_bracket`, which
`__init__` sets to `False` and nothing ever sets to `True`; the new
leaf is therefore the plain `+`-concatenation, and distinct operand
pairs with coinciding concatenations produce identical leaves. -/

/-- A record whose encoded chain digest is `"b+c"`. -/
def rec8a : Record := ⟨1, "A", [], none, [⟨none, ⟨"b+c", 0, "A"⟩⟩]⟩

/-- A record whose encoded chain digest is `"c"`. -/
def rec8b : Record := ⟨1, "A", [], none, [⟨none, ⟨"c", 0, "A"⟩⟩]⟩

/-- C8 (code-bug evaluation).  The operand pairs
(`"a"`, `"b+c"`) and (`"a+b"`, `"c"`) are distinct, yet the renewal
leaves coincide (both `"a+b+c"`) because the bracketed grouping is
dead under the program's `with_bracket = False` instance state; had
the flag been set, the leaves would differ. -/
theorem c8_renewal_leaves_collide :
    (("a" : String), encode_atsc rec8a.archiveTimeStampSequence) ≠
      ("a+b", encode_atsc rec8b.archiveTimeStampSequence) ∧
    renewLeaf false rec8a "a" = renewLeaf false rec8b "a+b" ∧
    renewLeaf true rec8a "a" ≠ renewLeaf true rec8b "a+b" :=
  ⟨by decide, rfl, by decide⟩

/-! ## C10: the supplied algorithm is dead for single-link records -/

/-- C10.  For a record with exactly one chain link, the verification
result does not depend on the algorithm component of the supplied
(digest, algorithm) pair: the loop over later links never runs, and no
algorithm stored in the record's timestamps is ever read. -/
theorem c10_single_link_ignores_algorithm (rec : Record) (l0 : Link)
    (hseq : rec.archiveTimeStampSequence = [l0]) (h a1 a2 : String)
    (now : Rat) :
    verify_evidence_record false (some rec) [(h, a1)] now =
      verify_evidence_record false (some rec) [(h, a2)] now := by
  simp only [verify_evidence_record, hseq, verifyChainLoop]

/-- A single-link record used to instantiate the algorithm-independence
theorem. -/
def rec10 : Record :=
  ⟨1, "SHA256", [], none,
    [⟨some (.mk "h" none none true none), ⟨"h", 0, "SHA256"⟩⟩]⟩

theorem c10_single_link_ignores_algorithm_witness :
    verify_evidence_record false (some rec10) [("h", "SHA256")] 3 =
      verify_evidence_record false (some rec10) [("h", "SHA512")] 3 :=
  c10_single_link_ignores_algorithm rec10
    ⟨some (.mk "h" none none true none), ⟨"h", 0, "SHA256"⟩⟩
    rfl "h" "SHA256" "SHA512" 3

end Ervis
